import Mathlib

/-!
Verification of the topic-extraction core of the Webpage-topics repository
(`TextToTopics.py`).  The Python class `TextToTopics` is embedded shallowly:

* Python strings are Lean `String`s; Python lists are Lean `List`s.
* Python `float` arithmetic is modelled by exact real arithmetic (`ℝ`);
  `math.log` is `Real.log`.
* The external linguistic capability (`nltk.pos_tag` and the WordNet
  lemmatizer) is a parameter of the embedding, the structure `Adapter`.
* `Counter` objects are insertion-ordered association lists; `most_common`
  is a stable descending sort (CPython's `sorted`/`heapq.nlargest` are
  stable) followed by truncation.
* The `ValueError` raised by `pos_based_topics` becomes `Except.error`.

All string manipulation is implemented directly on `List Char` so that every
definition reduces by `rfl`/`decide` on concrete inputs.
-/

set_option autoImplicit false

namespace TextToTopics

/-- The external linguistic capability used by `TextToTopics`:
`tag token` models `nltk.pos_tag([token])[0][1]` and
`lemmatize token c` models `WordNetLemmatizer().lemmatize(token, c)`.
It is a parameter of the embedding (the repository treats it as an
external dependency). -/
structure Adapter where
  tag : String → String
  lemmatize : String → Char → String

/-- First character of a tag string; `' '` for the empty string (the tagger
is assumed to return non-empty tags, as the source indexes `tag[0]`). -/
def firstChar (s : String) : Char :=
  s.data.headD ' '

/-- Embedding of `_get_pos`: maps the first character of the tagger output to
a WordNet part-of-speech letter, with `'n'` as the default fallback. -/
def get_pos (A : Adapter) (token : String) : Char :=
  let c := firstChar (A.tag token)
  if c = 'N' then 'n'
  else if c = 'V' then 'v'
  else if c = 'R' then 'r'
  else if c = 'J' then 'a'
  else if c = 'S' then 's'
  else 'n'

/-- Split a character list at every character satisfying `p`, keeping empty
segments (the semantics of Python's `str.split(sep)` for a single-character
separator, with `p` the test for that separator). -/
def splitP (p : Char → Bool) : List Char → List (List Char)
  | [] => [[]]
  | c :: rest =>
    if p c then [] :: splitP p rest
    else
      match splitP p rest with
      | [] => [[c]]
      | h :: t => (c :: h) :: t

/-- Python `str.split()` (no argument): split on whitespace runs and drop
empty segments. -/
def words (s : String) : List String :=
  ((splitP Char.isWhitespace s.data).filter (fun seg => !seg.isEmpty)).map String.mk

/-- Python `" ".join` on character lists. -/
def joinData : List (List Char) → List Char
  | [] => []
  | [x] => x
  | x :: y :: rest => x ++ ' ' :: joinData (y :: rest)

/-- Python `" ".join(tokens)`. -/
def joinSpace (l : List String) : String :=
  ⟨joinData (l.map String.data)⟩

/-- Python `str.lower()` (ASCII case folding suffices for the inputs the
claims are about). -/
def lowerStr (s : String) : String :=
  ⟨s.data.map Char.toLower⟩

/-- Embedding of `_lemmatize_content`: for each content unit, lowercase and
lemmatize each whitespace-delimited token (the part of speech is derived
from tagging the *original* surface form) and rejoin with single spaces. -/
def lemmatize_content (A : Adapter) (content : List String) : List String :=
  content.map (fun c =>
    joinSpace ((words c).map (fun t => A.lemmatize (lowerStr t) (get_pos A t))))

/-- Greedy match of the regex suffix `([A-Z]\.)*` at the head of a character
list: returns the matched pairs and the remaining characters. -/
def takePairs : List Char → List Char × List Char
  | c :: '.' :: rest =>
    if c.isUpper then
      let p := takePairs rest
      (c :: '.' :: p.1, p.2)
    else ([], c :: '.' :: rest)
  | l => ([], l)

/-- Fuel-indexed scanner for `re.findall(r'(?:[A-Z]\.)+', sentence)`:
left-to-right, non-overlapping, greedy matches. -/
def findAcronymsAux : Nat → List Char → List (List Char)
  | 0, _ => []
  | _ + 1, [] => []
  | fuel + 1, c :: rest =>
    if c.isUpper then
      match rest with
      | '.' :: rest2 =>
        let p := takePairs rest2
        (c :: '.' :: p.1) :: findAcronymsAux fuel p.2
      | _ => findAcronymsAux fuel rest
    else findAcronymsAux fuel rest

/-- All matches of `(?:[A-Z]\.)+` in a character list. -/
def findAcronyms (l : List Char) : List (List Char) :=
  findAcronymsAux l.length l

/-- Fuel-indexed version of Python `str.replace(pat, repl)` on character
lists (left-to-right, non-overlapping); the fuel is the list length, which
suffices for the non-empty patterns produced by `findAcronyms`. -/
def replaceAllAux : Nat → List Char → List Char → List Char → List Char
  | 0, l, _, _ => l
  | fuel + 1, l, pat, repl =>
    match l with
    | [] => []
    | c :: rest =>
      if pat.isPrefixOf l then repl ++ replaceAllAux fuel (l.drop pat.length) pat repl
      else c :: replaceAllAux fuel rest pat repl

/-- Python `str.replace(pat, repl)` for non-empty `pat`. -/
def replaceAll (l pat repl : List Char) : List Char :=
  replaceAllAux l.length l pat repl

/-- Embedding of `_handle_period`: find all maximal runs matching
`(?:[A-Z]\.)+` and replace each matched string by its period-free form
everywhere in the sentence. -/
def handle_period (s : String) : String :=
  (findAcronyms s.data).foldl
    (fun acc a => ⟨replaceAll acc.data a (a.filter (fun c => c ≠ '.'))⟩) s

/-- The character class of `_handle_punctuation`'s regex
`[!@#$%*()_+-=\[\]\{\}|\\:;",\<\>\.|"]`.  Inside the class, `+-=` is a
range, so the class also contains `,`, `-`, `.`, `/`, the digits `0`-`9`,
`:`, `;`, `<` and `=`. -/
def isPunct (c : Char) : Bool :=
  ['!', '@', '#', '$', '%', '*', '(', ')', '_'].contains c
  || (decide ('+' ≤ c) && decide (c ≤ '='))
  || ['[', ']', '{', '}', '|', '\\', ':', ';', '"', ',', '<', '>', '.'].contains c

/-- Replace every maximal run of characters satisfying `p` by the single
character `repl` (the semantics of `re.sub('[class]+', repl, ...)`).  The
flag records whether the previous character was part of a run. -/
def collapseAux (p : Char → Bool) (repl : Char) : Bool → List Char → List Char
  | _, [] => []
  | inRun, c :: rest =>
    if p c then
      if inRun then collapseAux p repl true rest
      else repl :: collapseAux p repl true rest
    else c :: collapseAux p repl false rest

/-- Embedding of `_handle_punctuation`: `re.sub(r'[...]+', ' ', s)` followed
by `re.sub(' +', ' ', s)`.  Note that the second substitution collapses runs
of space characters only and that the result is not trimmed. -/
def handle_punctuation (s : String) : String :=
  ⟨collapseAux (fun c => c == ' ') ' ' false (collapseAux isPunct ' ' false s.data)⟩

/-- The per-sentence normalization performed at the top of `_get_n_grams`:
`_handle_period`, then `sentence.split(".")`, then `_handle_punctuation` on
each fragment. -/
def normalized_fragments (A : Adapter) (content : List String) : List (List String) :=
  (lemmatize_content A content).map (fun sentence =>
    ((splitP (fun c => c == '.') (handle_period sentence).data).map String.mk).map
      handle_punctuation)

/-- The token filter of `_get_n_grams`:
`nltk.pos_tag([t])[0][1].startswith(('N','V','R','J','S'))` — for
single-character prefixes this is a test on the first character, false for
an empty tag. -/
def keepTag (tg : String) : Bool :=
  match tg.data with
  | [] => false
  | c :: _ => ['N', 'V', 'R', 'J', 'S'].contains c

/-- Tokens of one punctuation-stripped fragment that survive the
part-of-speech filter. -/
def filteredTokens (A : Adapter) (sub : String) : List String :=
  (words sub).filter (fun t => keepTag (A.tag t))

/-- All windows `tokens[i:i+n]` for `i in range(len(tokens)-(n-1))`
(`len(tokens) - (n-1)` is `len(tokens) - n + 1` for every `n ≥ 0`, matching
Python's arbitrary-precision arithmetic). -/
def windows (n : Nat) (tokens : List String) : List (List String) :=
  (List.range (tokens.length - n + 1)).map (fun i => (tokens.drop i).take n)

/-- The windows one filtered fragment contributes: the guard `m > n` is
strict, so a fragment with `m ≤ n` tokens (including `m = n`) emits
nothing. -/
def windowsOf (n : Nat) (tokens : List String) : List (List String) :=
  if n < tokens.length then windows n tokens else []

/-- Embedding of `_get_n_grams`: the flat, ordered, non-deduplicated list of
n-gram token tuples over all fragments of all content units. -/
def get_n_grams (A : Adapter) (content : List String) (n : Nat) : List (List String) :=
  (normalized_fragments A content).flatMap (fun frags =>
    frags.flatMap (fun sub => windowsOf n (filteredTokens A sub)))

section Counter

variable {α : Type} {β : Type}

/-- One `Counter.update({k: x})` step: if the key is present, add `x` to its
value in place (CPython dicts preserve the position of existing keys);
otherwise append the new key at the end. -/
def counterUpdate [Add β] : List (String × β) → String → β → List (String × β)
  | [], k, x => [(k, x)]
  | (k', y) :: rest, k, x =>
    if k' = k then (k', x + y) :: rest else (k', y) :: counterUpdate rest k x

/-- Value lookup in an association list. -/
def alookup (k : String) : List (String × β) → Option β
  | [] => none
  | (k', y) :: rest => if k' = k then some y else alookup k rest

/-- The keys of an association list, in insertion order. -/
def keysOf (l : List (String × β)) : List String :=
  l.map Prod.fst

/-- A whole counter-building loop: each element optionally contributes a
keyed weight, folded with `counterUpdate`. -/
def stepFold [Add β] (f : α → Option (String × β)) (l : List α)
    (init : List (String × β)) : List (String × β) :=
  l.foldl (fun ctr v =>
    match f v with
    | some p => counterUpdate ctr p.1 p.2
    | none => ctr) init

/-- The weight element `v` contributes to key `k`. -/
def keyWeight [Zero β] (f : α → Option (String × β)) (k : String) (v : α) : β :=
  match f v with
  | some p => if p.1 = k then p.2 else 0
  | none => 0

/-- Whether element `v` contributes to key `k` at all. -/
def hitsKey (f : α → Option (String × β)) (k : String) (v : α) : Bool :=
  match f v with
  | some p => decide (p.1 = k)
  | none => false

/-- Total contribution of a list of elements to key `k`. -/
def contrib [AddCommMonoid β] (f : α → Option (String × β)) (k : String)
    (l : List α) : β :=
  (l.map (keyWeight f k)).sum

end Counter

section Ranking

variable {β : Type}

/-- The ordering used by `Counter.most_common`: descending by score. -/
def scoreGe [LinearOrder β] (a b : String × β) : Prop :=
  b.2 ≤ a.2

instance scoreGeDecidable [LinearOrder β] : DecidableRel (@scoreGe β _) :=
  fun a b => inferInstanceAs (Decidable (b.2 ≤ a.2))

instance scoreGeTotal [LinearOrder β] : IsTotal (String × β) scoreGe :=
  ⟨fun a b => le_total b.2 a.2⟩

instance scoreGeTrans [LinearOrder β] : IsTrans (String × β) scoreGe :=
  ⟨fun _ _ _ h1 h2 => h2.trans h1⟩

/-- Stable descending sort by score: CPython's `sorted(key=count,
reverse=True)` and `heapq.nlargest` are both stable, so ties keep the
insertion order of the counter. -/
def sortDesc [LinearOrder β] (l : List (String × β)) : List (String × β) :=
  l.insertionSort scoreGe

/-- `Counter.most_common(number)`: all entries sorted descending when
`number` is `None`; the `number` largest (stably) when `number ≥ 1`; the
empty list when `number ≤ 0` (`heapq.nlargest` returns `[]` then). -/
def most_common [LinearOrder β] (number : Option Int) (l : List (String × β)) :
    List (String × β) :=
  match number with
  | none => sortDesc l
  | some k => if k ≤ 0 then [] else (sortDesc l).take k.toNat

end Ranking

/-- `counts[-1]` for an occurrence `value`: the number of list entries
element-wise equal to `value`. -/
def jointCount (ngrams : List (List String)) (value : List String) : Nat :=
  ngrams.countP (fun v => decide (v = value))

/-- `counts[i]` for an occurrence `value`: the number of list entries whose
token at position `i` equals `value`'s token at position `i`. -/
def margCount (ngrams : List (List String)) (value : List String) (i : Nat) : Nat :=
  ngrams.countP (fun v => decide (v.getD i "" = value.getD i ""))

/-- `total = len(ngrams)` as a real number. -/
def pimTotal (ngrams : List (List String)) : ℝ :=
  ngrams.length

/-- `p_all = counts[-1]/total`. -/
noncomputable def pimPAll (ngrams : List (List String)) (value : List String) : ℝ :=
  (jointCount ngrams value : ℝ) / pimTotal ngrams

/-- `p_other`: the loop `for c in counts[:-1]: p_other = p_other * c/total`
starting from `1`. -/
noncomputable def pimPOther (ngrams : List (List String)) (value : List String) : ℝ :=
  ((List.range value.length).map (margCount ngrams value)).foldl
    (fun (acc : ℝ) (c : ℕ) => acc * (c : ℝ) / pimTotal ngrams) 1

/-- `pmi = math.log(p_all/p_other)` for one occurrence. -/
noncomputable def pimPMI (ngrams : List (List String)) (value : List String) : ℝ :=
  Real.log (pimPAll ngrams value / pimPOther ngrams value)

/-- The PMI accumulation loop of `pim_based_topics`: every occurrence whose
joint count exceeds 2 adds its `pmi` to the topic string's counter entry. -/
noncomputable def pimCounter (ngrams : List (List String)) : List (String × ℝ) :=
  ngrams.foldl
    (fun ctr value =>
      if 2 < jointCount ngrams value then
        counterUpdate ctr (joinSpace value) (pimPMI ngrams value)
      else ctr) []

/-- Embedding of `pim_based_topics`.  `if number:` treats both `None` and
`0` as "no limit". -/
noncomputable def pim_based_topics (A : Adapter) (content : List String) (n : Nat)
    (number : Option Int) : List (String × ℝ) :=
  let ngrams := get_n_grams A content n
  let ctr := pimCounter ngrams
  match number with
  | none => most_common none ctr
  | some k => if k = 0 then most_common none ctr else most_common (some k) ctr

/-- `counter[value]` for the string-frequency table `Counter(ngrams)`. -/
def strFreq (ngrams : List String) (value : String) : Nat :=
  ngrams.countP (fun v => decide (v = value))

/-- The 3-gram filter of `pos_based_topics`: the first and third tokens must
tag with first letter `J` or `N`. -/
def qual3 (A : Adapter) (value : String) : Bool :=
  let parts := splitP (fun c => c == ' ') value.data
  let w1 : String := ⟨parts.getD 0 []⟩
  let w3 : String := ⟨parts.getD 2 []⟩
  ['J', 'N'].contains (firstChar (A.tag w1)) && ['J', 'N'].contains (firstChar (A.tag w3))

/-- The 2-gram filter of `pos_based_topics`: `(N, N)` or `(J, N)`. -/
def qual2 (A : Adapter) (value : String) : Bool :=
  let parts := splitP (fun c => c == ' ') value.data
  let w1 : String := ⟨parts.getD 0 []⟩
  let w2 : String := ⟨parts.getD 1 []⟩
  (['N'].contains (firstChar (A.tag w1)) && ['N'].contains (firstChar (A.tag w2)))
    || (['J'].contains (firstChar (A.tag w1)) && ['N'].contains (firstChar (A.tag w2)))

/-- The frequency accumulation loop shared by both branches of
`pos_based_topics`: every occurrence of a qualifying string adds
`counter[value]` to `counter_final[value]`. -/
def posCounterGen (qual : String → Bool) (ngrams : List String) : List (String × Nat) :=
  ngrams.foldl
    (fun ctr value =>
      if qual value then counterUpdate ctr value (strFreq ngrams value) else ctr) []

/-- The counter built by `pos_based_topics` for a given `n` (empty for the
values of `n` on which the source raises instead). -/
def posCounterOf (A : Adapter) (ngrams : List String) (n : Nat) : List (String × Nat) :=
  if n = 3 then posCounterGen (qual3 A) ngrams
  else if n = 2 then posCounterGen (qual2 A) ngrams
  else []

/-- Embedding of `pos_based_topics`; the `ValueError` for `n ∉ {2,3}` is an
`Except.error`.  The n-gram list is computed before the branch, exactly as
in the source. -/
def pos_based_topics (A : Adapter) (content : List String) (n : Nat)
    (number : Option Int) : Except String (List (String × Nat)) :=
  let ngrams := (get_n_grams A content n).map joinSpace
  if n = 3 then Except.ok (most_common number (posCounterGen (qual3 A) ngrams))
  else if n = 2 then Except.ok (most_common number (posCounterGen (qual2 A) ngrams))
  else Except.error "Part of speech based topics can only take n=2 or n=3"

/-- The payload of an `Except`-valued scorer result, `[]` on error. -/
def exceptD (r : Except String (List (String × Nat))) : List (String × Nat) :=
  match r with
  | .ok l => l
  | .error _ => []

/-- Occurrence count of a topic string in the flat n-gram tuple list. -/
def occCountStr (ngrams : List (List String)) (t : String) : Nat :=
  ngrams.countP (fun v => decide (joinSpace v = t))

/-- The PMI of a single occurrence of a topic, computed from the joint and
marginal counts of its first occurrence in the list. -/
noncomputable def pmiSingle (ngrams : List (List String)) (t : String) : ℝ :=
  match ngrams.find? (fun v => decide (joinSpace v = t)) with
  | some v => pimPMI ngrams v
  | none => 0

/-- Modelled from the spec: the external linguistic capability (nltk tagger
and WordNet lemmatizer, which are not part of this repository) restricted to
the tokens of the spec's acronym-normalization scenario: `He` tags `PRP`,
`has` tags `VBZ` and lemmatizes (as a verb) to `have`, `an` tags `DT` and
lemmatizes to `a`, everything else tags `NN` and lemmatizes to itself. -/
def specAdapter : Adapter where
  tag t := if t = "He" then "PRP" else if t = "has" then "VBZ" else if t = "an" then "DT" else "NN"
  lemmatize t _ := if t = "has" then "have" else if t = "an" then "a" else t

/-- A simple instance of the external linguistic capability for concrete
test runs: every token tags `NN` (a noun) and is its own lemma. -/
def nounAdapter : Adapter where
  tag _ := "NN"
  lemmatize t _ := t

/-- A concrete content collection: the bigram `x y` occurs three times in
its n-gram list and `y x` twice. -/
def epim : List String := ["x y x y x y"]

/-- The score accumulated for the topic `x y` on `epim`: three occurrences
pass the threshold, each adding one `pmi`. -/
noncomputable def epimScore : ℝ :=
  pimPMI (get_n_grams nounAdapter epim 2) ["x", "y"]
    + (pimPMI (get_n_grams nounAdapter epim 2) ["x", "y"]
      + pimPMI (get_n_grams nounAdapter epim 2) ["x", "y"])

/-- Modelled from the spec: `stripPunctuation` as the spec describes it —
replace each character of the fixed set
`! @ # $ % * ( ) _ + - = [ ] { } | \ : ; " , < > .` with a space, collapse
runs of whitespace into single spaces, and trim. -/
def stripPunctuationSpec (s : String) : String :=
  let replaced := s.data.map (fun c =>
    if ['!', '@', '#', '$', '%', '*', '(', ')', '_', '+', '-', '=', '[', ']',
        '{', '}', '|', '\\', ':', ';', '"', ',', '<', '>', '.'].contains c
    then ' ' else c)
  let collapsed := collapseAux Char.isWhitespace ' ' false replaced
  ⟨(collapsed.dropWhile (fun c => c == ' ')).reverse.dropWhile (fun c => c == ' ') |>.reverse⟩

/-- The amended description of `_handle_punctuation`: replace each character
of the actual class (which also contains `/` and the digits) with a space
and collapse runs of spaces; no trimming. -/
def stripPunctuationAmended (s : String) : String :=
  ⟨collapseAux (fun c => c == ' ') ' '  false
    (s.data.map (fun c => if isPunct c then ' ' else c))⟩

/-! ### Association-list counter lemmas -/

section CounterLemmas

variable {α β : Type} [AddCommMonoid β]

theorem counterUpdate_nil (k : String) (x : β) : counterUpdate [] k x = [(k, x)] := rfl

theorem counterUpdate_cons (k0 k : String) (y x : β) (tl : List (String × β)) :
    counterUpdate ((k0, y) :: tl) k x =
      if k0 = k then (k0, x + y) :: tl else (k0, y) :: counterUpdate tl k x := rfl

omit [AddCommMonoid β] in
theorem alookup_nil (k : String) : alookup k ([] : List (String × β)) = none := rfl

omit [AddCommMonoid β] in
theorem alookup_cons (k k0 : String) (y : β) (tl : List (String × β)) :
    alookup k ((k0, y) :: tl) = if k0 = k then some y else alookup k tl := rfl

theorem alookup_counterUpdate_self (l : List (String × β)) (k : String) (x : β) :
    alookup k (counterUpdate l k x) = some (x + (alookup k l).getD 0) := by
  induction l with
  | nil => simp [alookup_nil, counterUpdate_nil, alookup_cons]
  | cons hd tl ih =>
    obtain ⟨k', y⟩ := hd
    rw [counterUpdate_cons]
    by_cases h : k' = k
    · rw [if_pos h, alookup_cons, if_pos h, alookup_cons, if_pos h]
      simp
    · rw [if_neg h, alookup_cons, if_neg h, alookup_cons, if_neg h, ih]

theorem alookup_counterUpdate_ne (l : List (String × β)) {k k' : String} (x : β)
    (h : k' ≠ k) : alookup k' (counterUpdate l k x) = alookup k' l := by
  induction l with
  | nil =>
    rw [counterUpdate_nil, alookup_cons, if_neg (Ne.symm h), alookup_nil]
  | cons hd tl ih =>
    obtain ⟨k0, y⟩ := hd
    rw [counterUpdate_cons]
    by_cases h0 : k0 = k
    · have hk : k0 ≠ k' := fun hh => h (hh ▸ h0)
      rw [if_pos h0, alookup_cons, if_neg hk, alookup_cons, if_neg hk]
    · rw [if_neg h0, alookup_cons, alookup_cons, ih]

theorem mem_keysOf_counterUpdate {l : List (String × β)} {a k : String} {x : β} :
    a ∈ keysOf (counterUpdate l k x) ↔ a ∈ keysOf l ∨ a = k := by
  induction l with
  | nil => simp [keysOf, counterUpdate_nil]
  | cons hd tl ih =>
    obtain ⟨k0, y⟩ := hd
    rw [counterUpdate_cons]
    by_cases h0 : k0 = k
    · rw [if_pos h0]
      subst h0
      simp only [keysOf, List.map_cons, List.mem_cons]
      tauto
    · rw [if_neg h0]
      simp only [keysOf, List.map_cons, List.mem_cons]
      simp only [keysOf] at ih
      rw [ih]
      tauto

theorem nodup_keysOf_counterUpdate {l : List (String × β)} (k : String) (x : β)
    (h : (keysOf l).Nodup) : (keysOf (counterUpdate l k x)).Nodup := by
  induction l with
  | nil => simp [keysOf, counterUpdate_nil]
  | cons hd tl ih =>
    obtain ⟨k0, y⟩ := hd
    simp only [keysOf, List.map_cons, List.nodup_cons] at h
    rw [counterUpdate_cons]
    by_cases h0 : k0 = k
    · rw [if_pos h0]
      simp only [keysOf, List.map_cons, List.nodup_cons]
      exact h
    · rw [if_neg h0]
      simp only [keysOf, List.map_cons, List.nodup_cons]
      refine ⟨fun hm => ?_, ih h.2⟩
      rcases mem_keysOf_counterUpdate.mp hm with hm | hm
      · exact h.1 hm
      · exact h0 hm

omit [AddCommMonoid β] in
theorem alookup_eq_some_of_mem {l : List (String × β)} {k : String} {s : β}
    (hnd : (keysOf l).Nodup) (hm : (k, s) ∈ l) : alookup k l = some s := by
  induction l with
  | nil => cases hm
  | cons hd tl ih =>
    obtain ⟨k0, y⟩ := hd
    simp only [keysOf, List.map_cons, List.nodup_cons] at hnd
    rcases List.mem_cons.mp hm with hm | hm
    · injection hm with h1 h2
      subst h1; subst h2
      rw [alookup_cons, if_pos rfl]
    · have hk : k0 ≠ k := by
        rintro rfl
        exact hnd.1 (List.mem_map.mpr ⟨(k0, s), hm, rfl⟩)
      rw [alookup_cons, if_neg hk]
      exact ih hnd.2 hm

omit [AddCommMonoid β] in
theorem mem_of_alookup_eq_some {l : List (String × β)} {k : String} {s : β}
    (h : alookup k l = some s) : (k, s) ∈ l := by
  induction l with
  | nil => simp [alookup_nil] at h
  | cons hd tl ih =>
    obtain ⟨k0, y⟩ := hd
    rw [alookup_cons] at h
    by_cases h0 : k0 = k
    · rw [if_pos h0] at h
      injection h with h
      subst h0; subst h
      exact List.mem_cons_self _ _
    · rw [if_neg h0] at h
      exact List.mem_cons_of_mem _ (ih h)

theorem stepFold_nil {f : α → Option (String × β)} {init : List (String × β)} :
    stepFold f [] init = init := rfl

theorem stepFold_cons {f : α → Option (String × β)} {v : α} {l : List α}
    {init : List (String × β)} :
    stepFold f (v :: l) init =
      stepFold f l (match f v with
        | some p => counterUpdate init p.1 p.2
        | none => init) := rfl

theorem contrib_nil {f : α → Option (String × β)} {k : String} :
    contrib f k [] = 0 := rfl

theorem contrib_cons {f : α → Option (String × β)} {k : String} {v : α} {l : List α} :
    contrib f k (v :: l) = keyWeight f k v + contrib f k l := by
  simp [contrib]

theorem nodup_keysOf_stepFold {f : α → Option (String × β)} (l : List α) :
    ∀ init : List (String × β), (keysOf init).Nodup →
      (keysOf (stepFold f l init)).Nodup := by
  induction l with
  | nil => intro init h; exact h
  | cons v l ih =>
    intro init h
    rw [stepFold_cons]
    cases hf : f v with
    | none => exact ih init h
    | some p => exact ih _ (nodup_keysOf_counterUpdate p.1 p.2 h)

/-- The value a counter-building loop records for key `k`: the value there
before the loop, plus the sum of the weights the loop's elements contribute
to `k`; a key never touched stays absent. -/
theorem alookup_stepFold (f : α → Option (String × β)) (l : List α) :
    ∀ (init : List (String × β)) (k : String),
      alookup k (stepFold f l init) =
        match alookup k init with
        | some s => some (contrib f k l + s)
        | none => if l.any (hitsKey f k) then some (contrib f k l) else none := by
  induction l with
  | nil =>
    intro init k
    rw [stepFold_nil, contrib_nil]
    cases h : alookup k init with
    | none => simp
    | some s => simp
  | cons v l ih =>
    intro init k
    rw [stepFold_cons, contrib_cons]
    cases hf : f v with
    | none =>
      have hw : keyWeight f k v = 0 := by simp [keyWeight, hf]
      have hh : hitsKey f k v = false := by simp [hitsKey, hf]
      rw [ih init k]
      cases h : alookup k init with
      | none => simp [hh, hw]
      | some s => simp [hw]
    | some p =>
      obtain ⟨k', w⟩ := p
      by_cases hk : k' = k
      · subst hk
        have hw : keyWeight f k' v = w := by simp [keyWeight, hf]
        have hh : hitsKey f k' v = true := by simp [hitsKey, hf]
        rw [ih _ k', alookup_counterUpdate_self]
        cases h : alookup k' init with
        | none => simp [h, hh, hw, add_comm]
        | some s =>
          simp only [h, Option.getD_some, hw, List.any_cons, hh, Bool.true_or,
            Option.some.injEq]
          abel
      · have hw : keyWeight f k v = 0 := by simp [keyWeight, hf, hk]
        have hh : hitsKey f k v = false := by simp [hitsKey, hf, hk]
        rw [ih _ k, alookup_counterUpdate_ne _ _ (fun hh2 => hk hh2.symm)]
        cases h : alookup k init with
        | none => simp [hh, hw]
        | some s => simp [hw]

/-- Sum of an if-then-else weight over a list, as a count times the weight. -/
theorem sum_map_ite {γ : Type} [Semiring γ] (l : List α) (p : α → Bool) (c : γ) :
    (l.map (fun v => if p v then c else 0)).sum = (l.countP p : γ) * c := by
  induction l with
  | nil => simp
  | cons a t ih =>
    by_cases h : p a
    · simp only [List.map_cons, List.sum_cons, h, if_true, ih, List.countP_cons, h,
        if_pos rfl]
      push_cast
      rw [add_mul, one_mul, add_comm]
    · simp only [List.map_cons, List.sum_cons, h, Bool.false_eq_true, if_false, ih,
        List.countP_cons]
      simp [h]

end CounterLemmas

/-! ### Ranking lemmas -/

section RankingLemmas

variable {β : Type} [LinearOrder β]

theorem sortDesc_perm (l : List (String × β)) : List.Perm (sortDesc l) l :=
  List.perm_insertionSort scoreGe l

theorem sortDesc_sorted (l : List (String × β)) : List.Sorted scoreGe (sortDesc l) :=
  List.sorted_insertionSort scoreGe l

theorem mem_most_common {number : Option Int} {l : List (String × β)}
    {e : String × β} (h : e ∈ most_common number l) : e ∈ l := by
  cases number with
  | none => exact (sortDesc_perm l).mem_iff.mp h
  | some k =>
    simp only [most_common] at h
    by_cases hk : k ≤ 0
    · rw [if_pos hk] at h
      cases h
    · rw [if_neg hk] at h
      exact (sortDesc_perm l).mem_iff.mp (List.mem_of_mem_take h)

theorem nodup_keysOf_sortDesc {l : List (String × β)} (h : (keysOf l).Nodup) :
    (keysOf (sortDesc l)).Nodup :=
  (((sortDesc_perm l).map Prod.fst).nodup_iff).mpr h

theorem nodup_keysOf_most_common {number : Option Int} {l : List (String × β)}
    (h : (keysOf l).Nodup) : (keysOf (most_common number l)).Nodup := by
  cases number with
  | none => exact nodup_keysOf_sortDesc h
  | some k =>
    simp only [most_common]
    by_cases hk : k ≤ 0
    · rw [if_pos hk]
      simp [keysOf]
    · rw [if_neg hk]
      have : keysOf ((sortDesc l).take k.toNat)
          = (keysOf (sortDesc l)).take k.toNat := by
        simp [keysOf, List.map_take]
      rw [this]
      exact (nodup_keysOf_sortDesc h).sublist (List.take_sublist _ _)

/-- Stability of `orderedInsert` for the descending score order: the
elements carrying any fixed score are preserved in order, with the inserted
element in front of its own score class. -/
theorem filter_orderedInsert (a : String × β) (l : List (String × β)) (c : β) :
    (List.orderedInsert scoreGe a l).filter (fun x => decide (x.2 = c)) =
      if a.2 = c then a :: l.filter (fun x => decide (x.2 = c))
      else l.filter (fun x => decide (x.2 = c)) := by
  induction l with
  | nil =>
    by_cases h : a.2 = c <;> simp [List.orderedInsert, h]
  | cons b l ih =>
    by_cases hr : scoreGe a b
    · rw [List.orderedInsert, if_pos hr]
      by_cases h : a.2 = c <;> simp [h]
    · rw [List.orderedInsert, if_neg hr]
      have hb : a.2 < b.2 := lt_of_not_le hr
      by_cases h : a.2 = c
      · have hbc : ¬ b.2 = c := by
          rw [← h]
          exact ne_of_gt hb
        rw [if_pos h]
        simp only [List.filter_cons, hbc, decide_eq_true_eq, if_neg hbc]
        rw [ih, if_pos h]
        simp [hbc]
      · rw [if_neg h]
        simp only [List.filter_cons]
        rw [ih, if_neg h]

/-- Stability of the descending sort: for every score value, the entries
carrying that score appear in the sorted output in their original relative
order (first-insertion order for a counter). -/
theorem filter_sortDesc (l : List (String × β)) (c : β) :
    (sortDesc l).filter (fun x => decide (x.2 = c)) =
      l.filter (fun x => decide (x.2 = c)) := by
  induction l with
  | nil => rfl
  | cons a l ih =>
    have : sortDesc (a :: l) = List.orderedInsert scoreGe a (sortDesc l) := rfl
    rw [this, filter_orderedInsert, List.filter_cons]
    by_cases h : a.2 = c
    · rw [if_pos h, ih]
      simp [h]
    · rw [if_neg h, ih]
      simp [h]

end RankingLemmas

/-! ### Tokens contain no separator characters, and space-joins are injective -/

/-- A token as produced by `words`: non-empty and free of spaces. -/
def goodTok (tok : String) : Prop :=
  tok.data ≠ [] ∧ ' ' ∉ tok.data

theorem splitP_ne_nil (p : Char → Bool) (l : List Char) : splitP p l ≠ [] := by
  cases l with
  | nil => simp [splitP]
  | cons c rest =>
    rw [splitP]
    by_cases h : p c
    · simp [h]
    · rw [if_neg h]
      cases splitP p rest <;> simp

theorem splitP_chars (p : Char → Bool) (l : List Char) :
    ∀ seg ∈ splitP p l, ∀ c ∈ seg, p c = false := by
  induction l with
  | nil =>
    intro seg hseg c hc
    simp only [splitP, List.mem_singleton] at hseg
    subst hseg
    cases hc
  | cons c0 rest ih =>
    intro seg hseg c hc
    rw [splitP] at hseg
    by_cases h : p c0
    · rw [if_pos h] at hseg
      rcases List.mem_cons.mp hseg with hseg | hseg
      · subst hseg; cases hc
      · exact ih seg hseg c hc
    · rw [if_neg h] at hseg
      cases hs : splitP p rest with
      | nil => exact absurd hs (splitP_ne_nil p rest)
      | cons hseg0 t =>
        rw [hs] at hseg
        rcases List.mem_cons.mp hseg with hseg | hseg
        · subst hseg
          rcases List.mem_cons.mp hc with hc | hc
          · subst hc
            exact Bool.not_eq_true _ ▸ h
          · exact ih hseg0 (hs ▸ List.mem_cons_self _ _) c hc
        · exact ih seg (hs ▸ List.mem_cons_of_mem _ hseg) c hc

theorem words_good (s : String) : ∀ tok ∈ words s, goodTok tok := by
  intro tok htok
  simp only [words, List.mem_map, List.mem_filter] at htok
  obtain ⟨seg, ⟨hseg, hne⟩, rfl⟩ := htok
  refine ⟨by simpa using hne, fun hsp => ?_⟩
  have := splitP_chars Char.isWhitespace s.data seg hseg ' ' hsp
  simp [Char.isWhitespace] at this

theorem filteredTokens_good (A : Adapter) (sub : String) :
    ∀ tok ∈ filteredTokens A sub, goodTok tok := by
  intro tok htok
  exact words_good sub tok (List.mem_of_mem_filter htok)

theorem mem_of_mem_windows {n : Nat} {tokens : List String} {v : List String}
    (hv : v ∈ windows n tokens) : ∀ tok ∈ v, tok ∈ tokens := by
  simp only [windows, List.mem_map, List.mem_range] at hv
  obtain ⟨i, _, rfl⟩ := hv
  intro tok htok
  exact List.mem_of_mem_drop (List.mem_of_mem_take htok)

theorem get_n_grams_good (A : Adapter) (content : List String) (n : Nat) :
    ∀ v ∈ get_n_grams A content n, ∀ tok ∈ v, goodTok tok := by
  intro v hv
  simp only [get_n_grams, List.mem_flatMap] at hv
  obtain ⟨frags, _, sub, _, hv⟩ := hv
  rw [windowsOf] at hv
  by_cases h : n < (filteredTokens A sub).length
  · rw [if_pos h] at hv
    intro tok htok
    exact filteredTokens_good A sub tok (mem_of_mem_windows hv tok htok)
  · rw [if_neg h] at hv
    cases hv

/-- Splitting an equality of two space-joined pieces whose left parts are
space-free. -/
theorem append_space_inj :
    ∀ (x y r1 r2 : List Char), ' ' ∉ x → ' ' ∉ y →
      x ++ ' ' :: r1 = y ++ ' ' :: r2 → x = y ∧ r1 = r2 := by
  intro x
  induction x with
  | nil =>
    intro y r1 r2 _ hy h
    cases y with
    | nil => simpa using h
    | cons d y' =>
      simp only [List.nil_append, List.cons_append, List.cons.injEq] at h
      have : (' ' : Char) ∈ d :: y' := by
        rw [h.1]
        exact List.mem_cons_self d y'
      exact absurd this hy
  | cons c x' ih =>
    intro y r1 r2 hx hy h
    cases y with
    | nil =>
      simp only [List.cons_append, List.nil_append, List.cons.injEq] at h
      have : (' ' : Char) ∈ c :: x' := by
        rw [← h.1]
        exact List.mem_cons_self c x'
      exact absurd this hx
    | cons d y' =>
      simp only [List.cons_append, List.cons.injEq] at h
      obtain ⟨rfl, h⟩ := h
      have hx' : ' ' ∉ x' := fun hm => hx (List.mem_cons_of_mem _ hm)
      have hy' : ' ' ∉ y' := fun hm => hy (List.mem_cons_of_mem _ hm)
      obtain ⟨h1, h2⟩ := ih y' r1 r2 hx' hy' h
      exact ⟨by rw [h1], h2⟩

theorem joinData_inj :
    ∀ (xs ys : List (List Char)),
      (∀ x ∈ xs, x ≠ [] ∧ ' ' ∉ x) → (∀ y ∈ ys, y ≠ [] ∧ ' ' ∉ y) →
      joinData xs = joinData ys → xs = ys := by
  intro xs
  induction xs with
  | nil =>
    intro ys _ hys h
    cases ys with
    | nil => rfl
    | cons y ys' =>
      exfalso
      have hy := hys y (List.mem_cons_self _ _)
      cases ys' with
      | nil => exact hy.1 (by simpa [joinData] using h.symm)
      | cons z zs =>
        rw [joinData] at h
        cases hyd : y with
        | nil => exact hy.1 hyd
        | cons c cy => simp [joinData, hyd] at h
  | cons x xs' ih =>
    intro ys hxs hys h
    have hx := hxs x (List.mem_cons_self _ _)
    cases ys with
    | nil =>
      exfalso
      cases xs' with
      | nil => exact hx.1 (by simpa [joinData] using h)
      | cons z zs =>
        cases hxd : x with
        | nil => exact hx.1 hxd
        | cons c cx => simp [joinData, hxd] at h
    | cons y ys' =>
      have hy := hys y (List.mem_cons_self _ _)
      cases xs' with
      | nil =>
        cases ys' with
        | nil =>
          simp only [joinData] at h
          rw [h]
        | cons z zs =>
          exfalso
          simp only [joinData] at h
          exact hx.2 (h ▸ List.mem_append_right y (List.mem_cons_self ' ' _))
      | cons u us =>
        cases ys' with
        | nil =>
          exfalso
          simp only [joinData] at h
          exact hy.2 (h ▸ List.mem_append_right x (List.mem_cons_self ' ' _))
        | cons z zs =>
          simp only [joinData] at h
          obtain ⟨h1, h2⟩ := append_space_inj x y _ _ hx.2 hy.2 h
          have := ih (z :: zs) (fun a ha => hxs a (List.mem_cons_of_mem _ ha))
            (fun a ha => hys a (List.mem_cons_of_mem _ ha)) h2
          rw [h1, this]

theorem string_data_inj {a b : String} (h : a.data = b.data) : a = b := by
  cases a
  cases b
  simp only at h
  rw [h]

/-- On lists of `goodTok` tokens, `" ".join` is injective. -/
theorem joinSpace_inj {v1 v2 : List String}
    (h1 : ∀ tok ∈ v1, goodTok tok) (h2 : ∀ tok ∈ v2, goodTok tok)
    (h : joinSpace v1 = joinSpace v2) : v1 = v2 := by
  have hd : joinData (v1.map String.data) = joinData (v2.map String.data) :=
    congrArg String.data h
  have hgood : ∀ (v : List String), (∀ tok ∈ v, goodTok tok) →
      ∀ x ∈ v.map String.data, x ≠ [] ∧ ' ' ∉ x := by
    intro v hv x hx
    obtain ⟨tok, htok, rfl⟩ := List.mem_map.mp hx
    exact hv tok htok
  have := joinData_inj _ _ (hgood v1 h1) (hgood v2 h2) hd
  have hinj : Function.Injective String.data := fun a b hab => string_data_inj hab
  exact List.map_injective_iff.mpr hinj this

/-! ### Characterizing the scorers' outputs -/

/-- The optional keyed weight one occurrence contributes in
`pim_based_topics`. -/
noncomputable def pimStepFn (ngrams : List (List String)) (value : List String) :
    Option (String × ℝ) :=
  if 2 < jointCount ngrams value then some (joinSpace value, pimPMI ngrams value)
  else none

/-- The optional keyed weight one occurrence contributes in
`pos_based_topics`. -/
def posStepFn (qual : String → Bool) (ngrams : List String) (value : String) :
    Option (String × Nat) :=
  if qual value then some (value, strFreq ngrams value) else none

theorem pimCounter_eq_stepFold (ngrams : List (List String)) :
    pimCounter ngrams = stepFold (pimStepFn ngrams) ngrams [] := by
  rw [pimCounter, stepFold]
  congr 1
  funext ctr value
  by_cases h : 2 < jointCount ngrams value
  · simp [h, pimStepFn]
  · simp [h, pimStepFn]

theorem posCounterGen_eq_stepFold (qual : String → Bool) (ngrams : List String) :
    posCounterGen qual ngrams = stepFold (posStepFn qual ngrams) ngrams [] := by
  rw [posCounterGen, stepFold]
  congr 1
  funext ctr value
  by_cases h : qual value
  · simp [h, posStepFn]
  · simp [h, posStepFn]

theorem mem_pimCounter_of_mem_output {A : Adapter} {content : List String} {n : Nat}
    {number : Option Int} {e : String × ℝ}
    (h : e ∈ pim_based_topics A content n number) :
    e ∈ pimCounter (get_n_grams A content n) := by
  rw [pim_based_topics.eq_def] at h
  cases number with
  | none => exact mem_most_common h
  | some k =>
    simp only at h
    by_cases hk : k = 0
    · rw [if_pos hk] at h
      exact mem_most_common h
    · rw [if_neg hk] at h
      exact mem_most_common h

/-- Every entry of `pim_based_topics`' output comes from some occurrence
that passed the joint-count threshold, and its score is the total
contribution of the list to its key. -/
theorem pim_output_origin {A : Adapter} {content : List String} {n : Nat}
    {number : Option Int} {t : String} {s : ℝ}
    (h : (t, s) ∈ pim_based_topics A content n number) :
    ∃ v0, v0 ∈ get_n_grams A content n ∧ joinSpace v0 = t ∧
      2 < jointCount (get_n_grams A content n) v0 ∧
      s = contrib (pimStepFn (get_n_grams A content n)) t (get_n_grams A content n) := by
  set G := get_n_grams A content n with hG
  have hmem : (t, s) ∈ pimCounter G := mem_pimCounter_of_mem_output h
  rw [pimCounter_eq_stepFold] at hmem
  have hnd : (keysOf (stepFold (pimStepFn G) G ([] : List (String × ℝ)))).Nodup :=
    nodup_keysOf_stepFold G [] (by simp [keysOf])
  have hlook : alookup t (stepFold (pimStepFn G) G []) = some s :=
    alookup_eq_some_of_mem hnd hmem
  rw [alookup_stepFold (pimStepFn G) G [] t] at hlook
  simp only [alookup_nil] at hlook
  by_cases hany : G.any (hitsKey (pimStepFn G) t)
  · rw [if_pos hany] at hlook
    injection hlook with hlook
    obtain ⟨v0, hv0, hhit⟩ := List.any_eq_true.mp hany
    rw [hitsKey] at hhit
    by_cases hj : 2 < jointCount G v0
    · rw [pimStepFn, if_pos hj] at hhit
      simp only [decide_eq_true_eq] at hhit
      exact ⟨v0, hv0, hhit, hj, hlook.symm⟩
    · rw [pimStepFn, if_neg hj] at hhit
      cases hhit
  · rw [if_neg hany] at hlook
    cases hlook

/-- Evaluation of the total PMI contribution for the key of a qualifying
occurrence: occurrence count times the per-occurrence PMI. -/
theorem pim_contrib_eval {G : List (List String)} {t : String} {v0 : List String}
    (hgood : ∀ v ∈ G, ∀ tok ∈ v, goodTok tok) (hv0 : v0 ∈ G)
    (hjoin : joinSpace v0 = t) (hj : 2 < jointCount G v0) :
    contrib (pimStepFn G) t G = (occCountStr G t : ℝ) * pmiSingle G t := by
  have hpoint : ∀ v ∈ G, keyWeight (pimStepFn G) t v =
      if decide (v = v0) = true then pimPMI G v0 else 0 := by
    intro v hv
    by_cases hvv : v = v0
    · subst hvv
      rw [keyWeight, pimStepFn, if_pos hj]
      simp [hjoin]
    · rw [keyWeight, pimStepFn]
      by_cases hjv : 2 < jointCount G v
      · rw [if_pos hjv]
        simp only
        have hne : joinSpace v ≠ t := by
          intro hjt
          exact hvv (joinSpace_inj (hgood v hv) (hgood v0 hv0) (hjt.trans hjoin.symm))
        simp [hne, hvv]
      · rw [if_neg hjv]
        simp [hvv]
  have hcongr : G.map (keyWeight (pimStepFn G) t) =
      G.map (fun v => if decide (v = v0) = true then pimPMI G v0 else 0) :=
    List.map_congr_left hpoint
  have hsum : contrib (pimStepFn G) t G =
      (G.countP (fun v => decide (v = v0)) : ℝ) * pimPMI G v0 := by
    rw [contrib, hcongr, sum_map_ite]
  have hcount : G.countP (fun v => decide (v = v0)) =
      G.countP (fun v => decide (joinSpace v = t)) := by
    refine List.countP_congr (fun v hv => ?_)
    simp only [decide_eq_true_eq]
    constructor
    · rintro rfl; exact hjoin
    · intro hjt
      exact joinSpace_inj (hgood v hv) (hgood v0 hv0) (hjt.trans hjoin.symm)
  have hfind : pmiSingle G t = pimPMI G v0 := by
    rw [pmiSingle]
    cases hf : G.find? (fun v => decide (joinSpace v = t)) with
    | none =>
      exfalso
      have := List.find?_eq_none.mp hf v0 hv0
      simp [hjoin] at this
    | some v1 =>
      have hp : joinSpace v1 = t := by
        have := List.find?_some hf
        simpa using this
      have hv1 : v1 ∈ G := List.mem_of_find?_eq_some hf
      have : v1 = v0 :=
        joinSpace_inj (hgood v1 hv1) (hgood v0 hv0) (hp.trans hjoin.symm)
      rw [this]
  rw [hsum, hcount, hfind, occCountStr]

/-- C1.  Every topic in `pim_based_topics`' output scores its occurrence
count times its single-occurrence PMI: each of the (identical) occurrences
passing the `> 2` joint-count threshold adds the same `pmi`. -/
theorem pim_score_eq_occ_mul_pmi (A : Adapter) (content : List String) (n : Nat)
    (number : Option Int) (t : String) (s : ℝ)
    (h : (t, s) ∈ pim_based_topics A content n number) :
    s = (occCountStr (get_n_grams A content n) t : ℝ)
      * pmiSingle (get_n_grams A content n) t := by
  obtain ⟨v0, hv0, hjoin, hj, hs⟩ := pim_output_origin h
  rw [hs]
  exact pim_contrib_eval (get_n_grams_good A content n) hv0 hjoin hj

/-- C8.  No topic whose exact-match occurrence count in the flat n-gram
list is at most 2 ever appears in `pim_based_topics`' output. -/
theorem pim_output_occ_gt_two (A : Adapter) (content : List String) (n : Nat)
    (number : Option Int) (t : String) (s : ℝ)
    (h : (t, s) ∈ pim_based_topics A content n number) :
    2 < occCountStr (get_n_grams A content n) t := by
  obtain ⟨v0, hv0, hjoin, hj, -⟩ := pim_output_origin h
  have hle : jointCount (get_n_grams A content n) v0
      ≤ occCountStr (get_n_grams A content n) t := by
    refine List.countP_mono_left (fun v hv hvv => ?_)
    simp only [decide_eq_true_eq] at hvv ⊢
    rw [hvv]
    exact hjoin
  exact lt_of_lt_of_le hj hle

theorem pim_output_concrete :
    pim_based_topics nounAdapter epim 2 none = [("x y", epimScore)] := rfl

/-- C1 witness: on `epim`, the bigram `x y` occurs three times, passes the
threshold, and its recorded score is `3 × pmi`. -/
theorem pim_score_eq_occ_mul_pmi_witness :
    (("x y", epimScore) ∈ pim_based_topics nounAdapter epim 2 none) ∧
      epimScore = (occCountStr (get_n_grams nounAdapter epim 2) "x y" : ℝ)
        * pmiSingle (get_n_grams nounAdapter epim 2) "x y" := by
  have hmem : ("x y", epimScore) ∈ pim_based_topics nounAdapter epim 2 none := by
    rw [pim_output_concrete]
    exact List.mem_singleton.mpr rfl
  exact ⟨hmem, pim_score_eq_occ_mul_pmi nounAdapter epim 2 none "x y" epimScore hmem⟩

/-- C8 witness: the topic `x y` of `epim`'s output indeed has occurrence
count above 2. -/
theorem pim_output_occ_gt_two_witness :
    (("x y", epimScore) ∈ pim_based_topics nounAdapter epim 2 none) ∧
      2 < occCountStr (get_n_grams nounAdapter epim 2) "x y" := by
  have hmem : ("x y", epimScore) ∈ pim_based_topics nounAdapter epim 2 none := by
    rw [pim_output_concrete]
    exact List.mem_singleton.mpr rfl
  exact ⟨hmem, pim_output_occ_gt_two nounAdapter epim 2 none "x y" epimScore hmem⟩

theorem foldl_mul_div_pos {total : ℝ} (htot : 0 < total) :
    ∀ (l : List ℕ), (∀ c ∈ l, 0 < c) → ∀ acc : ℝ, 0 < acc →
      0 < l.foldl (fun (acc : ℝ) (c : ℕ) => acc * (c : ℝ) / total) acc := by
  intro l
  induction l with
  | nil => intro _ acc hacc; exact hacc
  | cons c t ih =>
    intro hpos acc hacc
    rw [List.foldl_cons]
    refine ih (fun d hd => hpos d (List.mem_cons_of_mem _ hd)) _ ?_
    have hc : (0 : ℝ) < (c : ℝ) :=
      Nat.cast_pos.mpr (hpos c (List.mem_cons_self _ _))
    exact div_pos (mul_pos hacc hc) htot

/-- C9.  Whenever the joint-count guard passes for an occurrence, the list
is non-empty, every positional marginal count is positive, and the argument
passed to `math.log` — `p_all/p_other` — is strictly positive; in
particular no division by zero and no logarithm of a non-positive number
occurs. -/
theorem pim_log_argument_pos (A : Adapter) (content : List String) (n : Nat)
    (v : List String) (hv : v ∈ get_n_grams A content n)
    (hj : 2 < jointCount (get_n_grams A content n) v) :
    0 < pimTotal (get_n_grams A content n) ∧
      (∀ i < v.length, 0 < margCount (get_n_grams A content n) v i) ∧
      0 < pimPOther (get_n_grams A content n) v ∧
      0 < pimPAll (get_n_grams A content n) v ∧
      0 < pimPAll (get_n_grams A content n) v
        / pimPOther (get_n_grams A content n) v := by
  set G := get_n_grams A content n with hG
  have hlen : 0 < G.length := List.length_pos_of_mem hv
  have htot : 0 < pimTotal G := by
    rw [pimTotal]
    exact_mod_cast hlen
  have hmarg : ∀ i, i < v.length → 0 < margCount G v i := by
    intro i _
    have hle : jointCount G v ≤ margCount G v i := by
      refine List.countP_mono_left (fun w hw hww => ?_)
      simp only [decide_eq_true_eq] at hww ⊢
      rw [hww]
    omega
  have hpother : 0 < pimPOther G v := by
    rw [pimPOther]
    refine foldl_mul_div_pos htot _ ?_ 1 one_pos
    intro c hc
    obtain ⟨i, hi, rfl⟩ := List.mem_map.mp hc
    exact hmarg i (List.mem_range.mp hi)
  have hpall : 0 < pimPAll G v := by
    rw [pimPAll]
    refine div_pos ?_ htot
    have : 0 < jointCount G v := by omega
    exact_mod_cast this
  exact ⟨htot, hmarg, hpother, hpall, div_pos hpall hpother⟩

/-- C9 witness: the first occurrence of `x y` in `epim`'s n-gram list
passes the guard and all the positivity facts hold there. -/
theorem pim_log_argument_pos_witness :
    (["x", "y"] ∈ get_n_grams nounAdapter epim 2 ∧
        2 < jointCount (get_n_grams nounAdapter epim 2) ["x", "y"]) ∧
      (0 < pimTotal (get_n_grams nounAdapter epim 2) ∧
        (∀ i < (["x", "y"] : List String).length,
          0 < margCount (get_n_grams nounAdapter epim 2) ["x", "y"] i) ∧
        0 < pimPOther (get_n_grams nounAdapter epim 2) ["x", "y"] ∧
        0 < pimPAll (get_n_grams nounAdapter epim 2) ["x", "y"] ∧
        0 < pimPAll (get_n_grams nounAdapter epim 2) ["x", "y"]
          / pimPOther (get_n_grams nounAdapter epim 2) ["x", "y"]) := by
  refine ⟨⟨by decide, by decide⟩, ?_⟩
  exact pim_log_argument_pos nounAdapter epim 2 ["x", "y"] (by decide) (by decide)

/-- The successful results of `pos_based_topics` are exactly the ranked
branch counters, and success forces `n ∈ {2,3}`. -/
theorem pos_ok_inv {A : Adapter} {content : List String} {n : Nat}
    {number : Option Int} {res : List (String × Nat)}
    (h : pos_based_topics A content n number = Except.ok res) :
    res = most_common number
        (posCounterOf A ((get_n_grams A content n).map joinSpace) n) ∧
      (n = 2 ∨ n = 3) := by
  rw [pos_based_topics] at h
  by_cases h3 : n = 3
  · rw [if_pos h3] at h
    injection h with h
    rw [posCounterOf, if_pos h3]
    exact ⟨h.symm, Or.inr h3⟩
  · rw [if_neg h3] at h
    by_cases h2 : n = 2
    · rw [if_pos h2] at h
      injection h with h
      rw [posCounterOf, if_neg h3, if_pos h2]
      exact ⟨h.symm, Or.inl h2⟩
    · rw [if_neg h2] at h
      cases h

/-- Every entry of a POS-pattern counter scores the square of its exact
string occurrence count. -/
theorem posCounterGen_mem_sq {qual : String → Bool} {ngrams : List String}
    {t : String} {s : Nat} (h : (t, s) ∈ posCounterGen qual ngrams) :
    s = strFreq ngrams t ^ 2 := by
  rw [posCounterGen_eq_stepFold] at h
  have hnd : (keysOf (stepFold (posStepFn qual ngrams) ngrams
      ([] : List (String × Nat)))).Nodup :=
    nodup_keysOf_stepFold ngrams [] (by simp [keysOf])
  have hlook := alookup_eq_some_of_mem hnd h
  rw [alookup_stepFold (posStepFn qual ngrams) ngrams [] t] at hlook
  simp only [alookup_nil] at hlook
  by_cases hany : ngrams.any (hitsKey (posStepFn qual ngrams) t)
  · rw [if_pos hany] at hlook
    injection hlook with hlook
    obtain ⟨v0, hv0, hhit⟩ := List.any_eq_true.mp hany
    rw [hitsKey] at hhit
    by_cases hq : qual v0
    · rw [posStepFn, if_pos hq] at hhit
      simp only [decide_eq_true_eq] at hhit
      subst hhit
      have hpoint : ∀ v ∈ ngrams, keyWeight (posStepFn qual ngrams) v0 v =
          if decide (v = v0) = true then strFreq ngrams v0 else 0 := by
        intro v _
        by_cases hvv : v = v0
        · subst hvv
          rw [keyWeight, posStepFn, if_pos hq]
          simp
        · rw [keyWeight, posStepFn]
          by_cases hqv : qual v
          · rw [if_pos hqv]
            simp [hvv]
          · rw [if_neg hqv]
            simp [hvv]
      have hc : contrib (posStepFn qual ngrams) v0 ngrams =
          ngrams.countP (fun v => decide (v = v0)) * strFreq ngrams v0 := by
        rw [contrib, List.map_congr_left hpoint, sum_map_ite, Nat.cast_id]
      have hcount : ngrams.countP (fun v => decide (v = v0)) = strFreq ngrams v0 := rfl
      rw [hlook.symm, hc, hcount, sq]
    · rw [posStepFn, if_neg hq] at hhit
      cases hhit
  · rw [if_neg hany] at hlook
    cases hlook

/-- C2.  Every topic returned by `pos_based_topics` scores the square of
its exact-string occurrence count in the space-joined n-gram list. -/
theorem pos_score_eq_occ_sq (A : Adapter) (content : List String) (n : Nat)
    (number : Option Int) (res : List (String × Nat)) (t : String) (s : Nat)
    (hok : pos_based_topics A content n number = Except.ok res)
    (hmem : (t, s) ∈ res) :
    s = strFreq ((get_n_grams A content n).map joinSpace) t ^ 2 := by
  obtain ⟨hres, hn⟩ := pos_ok_inv hok
  subst hres
  have hmem' := mem_most_common hmem
  rw [posCounterOf] at hmem'
  rcases hn with hn | hn
  · rw [if_neg (by omega : ¬ n = 3), if_pos hn] at hmem'
    exact posCounterGen_mem_sq hmem'
  · rw [if_pos hn] at hmem'
    exact posCounterGen_mem_sq hmem'

theorem pos_output_concrete :
    pos_based_topics nounAdapter epim 2 (some 5) =
      Except.ok [("x y", 9), ("y x", 4)] := rfl

/-- C2 witness: on `epim` with `n = 2`, the topic `x y` occurs 3 times and
scores `9 = 3²`. -/
theorem pos_score_eq_occ_sq_witness :
    (pos_based_topics nounAdapter epim 2 (some 5) =
        Except.ok [("x y", 9), ("y x", 4)]) ∧
      (("x y", 9) ∈ [("x y", (9 : Nat)), ("y x", 4)]) ∧
      9 = strFreq ((get_n_grams nounAdapter epim 2).map joinSpace) "x y" ^ 2 :=
  ⟨pos_output_concrete, List.mem_cons_self _ _,
    pos_score_eq_occ_sq nounAdapter epim 2 (some 5) [("x y", 9), ("y x", 4)]
      "x y" 9 pos_output_concrete (List.mem_cons_self _ _)⟩

/-- C4.  For every `n` outside `{2,3}`, `pos_based_topics` signals the
invalid-argument condition (the source's `ValueError`) and produces no
scored result. -/
theorem pos_invalid_n (A : Adapter) (content : List String) (n : Nat)
    (number : Option Int) (h2 : n ≠ 2) (h3 : n ≠ 3) :
    pos_based_topics A content n number =
      Except.error "Part of speech based topics can only take n=2 or n=3" := by
  rw [pos_based_topics, if_neg h3, if_neg h2]

/-- C4 witness: `n = 5` raises. -/
theorem pos_invalid_n_witness :
    ((5 : Nat) ≠ 2 ∧ (5 : Nat) ≠ 3) ∧
      pos_based_topics nounAdapter epim 5 (some 1) =
        Except.error "Part of speech based topics can only take n=2 or n=3" :=
  ⟨⟨by decide, by decide⟩,
    pos_invalid_n nounAdapter epim 5 (some 1) (by decide) (by decide)⟩

/-- The effective `most_common` argument of `pim_based_topics`: Python's
`if number:` treats `None` and `0` alike. -/
def pimNumber (number : Option Int) : Option Int :=
  match number with
  | none => none
  | some k => if k = 0 then none else some k

theorem pim_eq_most_common (A : Adapter) (content : List String) (n : Nat)
    (number : Option Int) :
    pim_based_topics A content n number =
      most_common (pimNumber number) (pimCounter (get_n_grams A content n)) := by
  rw [pim_based_topics.eq_def, pimNumber.eq_def]
  cases number with
  | none => rfl
  | some k => by_cases hk : k = 0 <;> simp [hk]

theorem nodup_keysOf_pimCounter (ngrams : List (List String)) :
    (keysOf (pimCounter ngrams)).Nodup := by
  rw [pimCounter_eq_stepFold]
  exact nodup_keysOf_stepFold ngrams [] (by simp [keysOf])

theorem nodup_keysOf_posCounterOf (A : Adapter) (ngrams : List String) (n : Nat) :
    (keysOf (posCounterOf A ngrams n)).Nodup := by
  rw [posCounterOf]
  by_cases h3 : n = 3
  · rw [if_pos h3, posCounterGen_eq_stepFold]
    exact nodup_keysOf_stepFold ngrams [] (by simp [keysOf])
  · rw [if_neg h3]
    by_cases h2 : n = 2
    · rw [if_pos h2, posCounterGen_eq_stepFold]
      exact nodup_keysOf_stepFold ngrams [] (by simp [keysOf])
    · rw [if_neg h2]
      simp [keysOf]

/-- C10.  The topic strings of both scorers' outputs are pairwise distinct:
each topic appears at most once, all its duplicate occurrences having been
merged into one accumulated entry. -/
theorem output_topics_nodup (A : Adapter) (content : List String) (n : Nat)
    (number : Option Int) :
    (keysOf (pim_based_topics A content n number)).Nodup ∧
      (keysOf (exceptD (pos_based_topics A content n number))).Nodup := by
  constructor
  · rw [pim_eq_most_common]
    exact nodup_keysOf_most_common (nodup_keysOf_pimCounter _)
  · cases hr : pos_based_topics A content n number with
    | error e => simp [exceptD, keysOf]
    | ok res =>
      obtain ⟨hres, -⟩ := pos_ok_inv hr
      rw [exceptD, hres]
      exact nodup_keysOf_most_common (nodup_keysOf_posCounterOf A _ n)

/-- C3.  A filtered fragment of `m` tokens contributes windows at offsets
`0 .. m-n` (that is, `m-n+1` of them) when `m > n` strictly, and none at
all when `m ≤ n`, including the boundary case `m = n`. -/
theorem windowsOf_count (toks : List String) (n : Nat) :
    (toks.length ≤ n → windowsOf n toks = []) ∧
      (n < toks.length →
        (windowsOf n toks).length = toks.length - n + 1 ∧
        ∀ i ≤ toks.length - n,
          (windowsOf n toks)[i]? = some ((toks.drop i).take n)) := by
  constructor
  · intro h
    rw [windowsOf, if_neg (by omega)]
  · intro h
    rw [windowsOf, if_pos h]
    constructor
    · simp [windows]
    · intro i hi
      rw [windows, List.getElem?_map, List.getElem?_range (by omega)]
      rfl

/-- C3 witness: three tokens give two bigram windows and zero trigram
windows. -/
theorem windowsOf_count_witness :
    ((2 : Nat) < 3 ∧ (windowsOf 2 ["a", "b", "c"]).length = 3 - 2 + 1 ∧
        (windowsOf 2 ["a", "b", "c"])[1]? = some ["b", "c"]) ∧
      ((3 : Nat) ≤ 3 ∧ windowsOf 3 ["a", "b", "c"] = []) := by
  have h1 := (windowsOf_count ["a", "b", "c"] 2).2 (by decide)
  refine ⟨⟨by decide, h1.1, ?_⟩, ⟨by decide, (windowsOf_count ["a", "b", "c"] 3).1 (by decide)⟩⟩
  have := h1.2 1 (by decide)
  simpa using this

/-- Collapsing punctuation runs to spaces and then collapsing space runs is
the same as collapsing runs of the union class in one pass. -/
theorem collapse_comp :
    ∀ (l : List Char) (b1 b2 : Bool), (b1 = true → b2 = true) →
      collapseAux (fun c => c == ' ') ' ' b2 (collapseAux isPunct ' ' b1 l) =
        collapseAux (fun c => isPunct c || c == ' ') ' ' b2 l := by
  intro l
  induction l with
  | nil => intro b1 b2 _; cases b1 <;> rfl
  | cons c rest ih =>
    intro b1 b2 h
    by_cases hp : isPunct c
    · cases b1 with
      | true =>
        have hb2 := h rfl
        subst hb2
        have e1 : collapseAux isPunct ' ' true (c :: rest) =
            collapseAux isPunct ' ' true rest := by simp [collapseAux, hp]
        have e3 : collapseAux (fun c => isPunct c || c == ' ') ' ' true (c :: rest) =
            collapseAux (fun c => isPunct c || c == ' ') ' ' true rest := by
          simp [collapseAux, hp]
        rw [e1, e3, ih true true (fun _ => rfl)]
      | false =>
        have e1 : collapseAux isPunct ' ' false (c :: rest) =
            ' ' :: collapseAux isPunct ' ' true rest := by simp [collapseAux, hp]
        have e2 : ∀ X, collapseAux (fun c => c == ' ') ' ' b2 (' ' :: X) =
            if b2 then collapseAux (fun c => c == ' ') ' ' true X
            else ' ' :: collapseAux (fun c => c == ' ') ' ' true X := by
          intro X
          cases b2 <;> simp [collapseAux]
        have e3 : collapseAux (fun c => isPunct c || c == ' ') ' ' b2 (c :: rest) =
            if b2 then collapseAux (fun c => isPunct c || c == ' ') ' ' true rest
            else ' ' :: collapseAux (fun c => isPunct c || c == ' ') ' ' true rest := by
          cases b2 <;> simp [collapseAux, hp]
        rw [e1, e2, e3, ih true true (fun _ => rfl)]
    · by_cases hs : c = ' '
      · subst hs
        have e1 : collapseAux isPunct ' ' b1 (' ' :: rest) =
            ' ' :: collapseAux isPunct ' ' false rest := by
          cases b1 <;> simp [collapseAux, hp]
        have e2 : ∀ X, collapseAux (fun c => c == ' ') ' ' b2 (' ' :: X) =
            if b2 then collapseAux (fun c => c == ' ') ' ' true X
            else ' ' :: collapseAux (fun c => c == ' ') ' ' true X := by
          intro X
          cases b2 <;> simp [collapseAux]
        have e3 : collapseAux (fun c => isPunct c || c == ' ') ' ' b2 (' ' :: rest) =
            if b2 then collapseAux (fun c => isPunct c || c == ' ') ' ' true rest
            else ' ' :: collapseAux (fun c => isPunct c || c == ' ') ' ' true rest := by
          cases b2 <;> simp [collapseAux, hp]
        rw [e1, e2, e3, ih false true (fun hh => by cases hh)]
      · have e1 : collapseAux isPunct ' ' b1 (c :: rest) =
            c :: collapseAux isPunct ' ' false rest := by
          cases b1 <;> simp [collapseAux, hp]
        have e2 : ∀ X, collapseAux (fun c => c == ' ') ' ' b2 (c :: X) =
            c :: collapseAux (fun c => c == ' ') ' ' false X := by
          intro X
          cases b2 <;> simp [collapseAux, hs]
        have e3 : collapseAux (fun c => isPunct c || c == ' ') ' ' b2 (c :: rest) =
            c :: collapseAux (fun c => isPunct c || c == ' ') ' ' false rest := by
          cases b2 <;> simp [collapseAux, hp, hs]
        rw [e1, e2, e3, ih false false (fun hh => by cases hh)]

/-- Collapsing space runs after replacing each punctuation character by a
space is also the one-pass collapse of the union class. -/
theorem collapse_map :
    ∀ (l : List Char) (b : Bool),
      collapseAux (fun c => c == ' ') ' ' b
          (l.map (fun c => if isPunct c then ' ' else c)) =
        collapseAux (fun c => isPunct c || c == ' ') ' ' b l := by
  intro l
  induction l with
  | nil => intro b; rfl
  | cons c rest ih =>
    intro b
    rw [List.map_cons]
    by_cases hp : isPunct c
    · have e1 : (if isPunct c then ' ' else c) = ' ' := by simp [hp]
      have e2 : collapseAux (fun c => c == ' ') ' ' b
          (' ' :: rest.map (fun c => if isPunct c then ' ' else c)) =
          if b then collapseAux (fun c => c == ' ') ' ' true
            (rest.map (fun c => if isPunct c then ' ' else c))
          else ' ' :: collapseAux (fun c => c == ' ') ' ' true
            (rest.map (fun c => if isPunct c then ' ' else c)) := by
        cases b <;> simp [collapseAux]
      have e3 : collapseAux (fun c => isPunct c || c == ' ') ' ' b (c :: rest) =
          if b then collapseAux (fun c => isPunct c || c == ' ') ' ' true rest
          else ' ' :: collapseAux (fun c => isPunct c || c == ' ') ' ' true rest := by
        cases b <;> simp [collapseAux, hp]
      rw [e1, e2, e3, ih true]
    · have e1 : (if isPunct c then ' ' else c) = c := by simp [hp]
      rw [e1]
      by_cases hs : c = ' '
      · subst hs
        have e2 : collapseAux (fun c => c == ' ') ' ' b
            (' ' :: rest.map (fun c => if isPunct c then ' ' else c)) =
            if b then collapseAux (fun c => c == ' ') ' ' true
              (rest.map (fun c => if isPunct c then ' ' else c))
            else ' ' :: collapseAux (fun c => c == ' ') ' ' true
              (rest.map (fun c => if isPunct c then ' ' else c)) := by
          cases b <;> simp [collapseAux]
        have e3 : collapseAux (fun c => isPunct c || c == ' ') ' ' b (' ' :: rest) =
            if b then collapseAux (fun c => isPunct c || c == ' ') ' ' true rest
            else ' ' :: collapseAux (fun c => isPunct c || c == ' ') ' ' true rest := by
          cases b <;> simp [collapseAux, hp]
        rw [e2, e3, ih true]
      · have e2 : collapseAux (fun c => c == ' ') ' ' b
            (c :: rest.map (fun c => if isPunct c then ' ' else c)) =
            c :: collapseAux (fun c => c == ' ') ' ' false
              (rest.map (fun c => if isPunct c then ' ' else c)) := by
          cases b <;> simp [collapseAux, hs]
        have e3 : collapseAux (fun c => isPunct c || c == ' ') ' ' b (c :: rest) =
            c :: collapseAux (fun c => isPunct c || c == ' ') ' ' false rest := by
          cases b <;> simp [collapseAux, hp, hs]
        rw [e2, e3, ih false]

/-- C5 (amended).  `_handle_punctuation` replaces each maximal run of
characters of the actual class — the spec's listed set together with `/`
and the digits `0`-`9`, contributed by the `+-=` range — by a single space
and collapses runs of spaces; it does not trim, and it touches no character
outside that class (in particular apostrophes and letters). -/
theorem handle_punctuation_amended (s : String) :
    handle_punctuation s = stripPunctuationAmended s := by
  rw [handle_punctuation, stripPunctuationAmended]
  exact congrArg String.mk
    ((collapse_comp s.data false false (fun h => h)).trans
      (collapse_map s.data false).symm)

/-- C5 counterexample: on `"a1"` the source replaces the digit with a space
and keeps the trailing space, while the spec's description of
`stripPunctuation` (fixed set without digits, collapse, trim) leaves
`"a1"` unchanged. -/
theorem handle_punctuation_counterexample :
    handle_punctuation "a1" = "a " ∧ stripPunctuationSpec "a1" = "a1" ∧
      handle_punctuation "a1" ≠ stripPunctuationSpec "a1" := by
  refine ⟨by decide, by decide, by decide⟩

/-- C6.  On `"He has an M.B.A. degree."` the pipeline does *not* produce
the single normalized sentence `"he have a mba degree"`: `_handle_period`
runs only after `_lemmatize_content` has lowercased every token, and its
regex `(?:[A-Z]\.)+` requires uppercase letters, so the acronym's periods
survive and the sentence is split at them into five fragments.  The
in-pipeline acronym collapsing documented by `_handle_period`'s docstring
is dead code. -/
theorem normalized_fragments_acronym_bug :
    normalized_fragments specAdapter ["He has an M.B.A. degree."] =
        [["he have a m", "b", "a", " degree", ""]] ∧
      normalized_fragments specAdapter ["He has an M.B.A. degree."] ≠
        [["he have a mba degree"]] := by
  refine ⟨by decide, by decide⟩

/-- What the top-N step guarantees for a positive requested count `k`: the
output is the stable descending sort of the counter truncated to `k`
entries, scores are non-increasing, at most `k` entries are returned, all
candidates are returned when `k` is at least their number, and ties keep
the counter's first-insertion order (each score class is preserved
verbatim). -/
def rankedOk {β : Type} [LinearOrder β] (ctr out : List (String × β)) (k : Int) : Prop :=
  out = (sortDesc ctr).take k.toNat ∧
    List.Sorted scoreGe out ∧
    out.length ≤ k.toNat ∧
    ((ctr.length : Int) ≤ k → List.Perm out ctr) ∧
    (∀ c : β, (sortDesc ctr).filter (fun x => decide (x.2 = c)) =
      ctr.filter (fun x => decide (x.2 = c)))

theorem ranked_of_most_common {β : Type} [LinearOrder β]
    (ctr : List (String × β)) (k : Int) (hk : 1 ≤ k) :
    rankedOk ctr (most_common (some k) ctr) k := by
  have hknot : ¬ k ≤ 0 := by omega
  have hout : most_common (some k) ctr = (sortDesc ctr).take k.toNat := by
    rw [most_common, if_neg hknot]
  refine ⟨hout, ?_, ?_, ?_, fun c => filter_sortDesc ctr c⟩
  · rw [hout]
    exact List.Pairwise.sublist (List.take_sublist _ _) (sortDesc_sorted ctr)
  · rw [hout]
    exact List.length_take_le _ _
  · intro hlen
    have h0 : (0 : Int) ≤ k := by omega
    have hlen' : ctr.length ≤ k.toNat := (Int.le_toNat h0).mpr hlen
    have hslen : (sortDesc ctr).length ≤ k.toNat := by
      rw [(sortDesc_perm ctr).length_eq]
      exact hlen'
    rw [hout, List.take_of_length_le hslen]
    exact sortDesc_perm ctr

/-- C7 (amended).  For every positive requested count, both scorers return
the stable descending sort of their qualifying candidates truncated to at
most `number` entries, with non-increasing scores, ties in first-insertion
order, and all candidates whenever `number` is at least their count.  (For
`pim_based_topics` the restriction to `number ≥ 1` is necessary: `0` is
falsy in Python, so `number = 0` is treated as "no limit".) -/
theorem topn_ranking (A : Adapter) (content : List String) (n : Nat) (k : Int)
    (hk : 1 ≤ k) :
    rankedOk (pimCounter (get_n_grams A content n))
        (pim_based_topics A content n (some k)) k ∧
      ∀ res, pos_based_topics A content n (some k) = Except.ok res →
        rankedOk (posCounterOf A ((get_n_grams A content n).map joinSpace) n) res k := by
  constructor
  · have hnum : pimNumber (some k) = some k := by
      rw [pimNumber, if_neg (by omega : ¬ k = 0)]
    rw [pim_eq_most_common, hnum]
    exact ranked_of_most_common _ k hk
  · intro res hok
    obtain ⟨hres, -⟩ := pos_ok_inv hok
    rw [hres]
    exact ranked_of_most_common _ k hk

/-- C7 counterexample: with `number = 0` explicitly given,
`pim_based_topics` does not truncate at all — on `epim` it returns its one
qualifying candidate, so `len(result) ≤ number` fails. -/
theorem topn_ranking_counterexample :
    (pim_based_topics nounAdapter epim 2 (some 0)).length = 1 ∧
      ¬ ((pim_based_topics nounAdapter epim 2 (some 0)).length ≤ 0) := by
  have hlen : (pim_based_topics nounAdapter epim 2 (some 0)).length = 1 := by
    rw [pim_eq_most_common]
    show (sortDesc (pimCounter (get_n_grams nounAdapter epim 2))).length = 1
    rw [(sortDesc_perm _).length_eq]
    rfl
  exact ⟨hlen, by omega⟩

/-- C7 witness: the ranking contract holds at the concrete positive count
`1` on `epim`. -/
theorem topn_ranking_witness :
    (1 : Int) ≤ 1 ∧
      (rankedOk (pimCounter (get_n_grams nounAdapter epim 2))
          (pim_based_topics nounAdapter epim 2 (some 1)) 1 ∧
        ∀ res, pos_based_topics nounAdapter epim 2 (some 1) = Except.ok res →
          rankedOk (posCounterOf nounAdapter
            ((get_n_grams nounAdapter epim 2).map joinSpace) 2) res 1) :=
  ⟨by decide, topn_ranking nounAdapter epim 2 1 (by decide)⟩

end TextToTopics
